import Mathlib

/-!
Shallow embedding of the near-Earth-object database (src/models.py, src/database.py,
src/write.py).

Mutable Python objects are modelled by explicit state passing: the NEO and close-approach
collections are Lean lists, and the in-place cross references (`CloseApproach.neo`,
`NearEarthObject.approaches`) are indices into those lists, so that object identity in the
Python heap corresponds to list position here.  Python dicts are modelled as insertion-ordered
association lists with last-binding-wins lookup.  Floats from the source are carried as `Float`
values but never computed with.  The modules `filters.py` and `helpers.py` and the `limit`
function are referenced by the source but are not part of the given source tree; the few
definitions that depend on them are modelled from the specification and say so in their doc
comments.
-/

/-- Embedding of `models.NearEarthObject` (src/models.py): designation, optional IAU name,
diameter in km (NaN sentinel for unknown), hazardous flag, and the list of linked close
approaches (as indices into the database's approach collection), initially empty. -/
structure NearEarthObject where
  designation : String := ""
  name : Option String := none
  diameter : Float := 0.0
  hazardous : Bool := false
  approaches : List Nat := []

/-- Embedding of `models.CloseApproach` (src/models.py): the private designation reference,
the optional approach time (carried as the already-parsed source string, since the parsing
helper is external), distance, velocity, and the reference to the linked NEO (an index into
the database's NEO collection), initially unset. -/
structure CloseApproach where
  _designation : String := ""
  time : Option String := none
  distance : Float := 0.0
  velocity : Float := 0.0
  neo : Option Nat := none

/-- Embedding of Python dict assignment `d[k] = v`: append the binding; lookup takes the
latest binding, so assignment overwrites observationally. -/
def dictInsert {κ : Type} (d : List (κ × Nat)) (k : κ) (v : Nat) : List (κ × Nat) :=
  d ++ [(k, v)]

/-- Embedding of Python dict lookup `d[k]` (wrapped in try/except KeyError → None in the
source): the latest binding for `k` wins, `none` when the key is absent. -/
def dictGet? {κ : Type} [DecidableEq κ] : List (κ × Nat) → κ → Option Nat
  | [], _ => none
  | kv :: rest, k =>
    match dictGet? rest k with
    | some v => some v
    | none => if kv.1 = k then some kv.2 else none

/-- Embedding of the inner loop of `NEODatabase.__init__` (src/database.py lines 66-69) for
the NEO of index `i` and designation `desig`: walk the approach collection (the counter `j`
is the position of the head approach); every approach whose `_designation` equals `desig`
gets its `neo` reference set to `i`, and its position is appended to the NEO's approaches
list.  Returns the updated approach collection and the collected positions, in order. -/
def linkPass (i : Nat) (desig : String) : List CloseApproach → Nat → List CloseApproach × List Nat
  | [], _ => ([], [])
  | a :: rest, j =>
    let p := linkPass i desig rest (j + 1)
    if a._designation = desig then ({ a with neo := some i } :: p.1, j :: p.2)
    else (a :: p.1, p.2)

/-- Embedding of the outer loop of `NEODatabase.__init__` (src/database.py lines 58-69):
for each NEO, in order (the counter `i` is the position of the head NEO), record it in the
designation index, record it in the name index when its name is truthy (neither absent nor
the empty string), and run the linking pass over the current approach collection.  Returns
the updated NEO collection, the updated approach collection, and the two indexes. -/
def initLoop :
    List NearEarthObject → Nat → List CloseApproach → List (Option String × Nat) →
      List (String × Nat) →
      List NearEarthObject × List CloseApproach × List (Option String × Nat) × List (String × Nat)
  | [], _, apps, name2, des2 => ([], apps, name2, des2)
  | neo :: rest, i, apps, name2, des2 =>
    let des2' := dictInsert des2 neo.designation i
    let name2' :=
      match neo.name with
      | some nm => if nm = "" then name2 else dictInsert name2 (some nm) i
      | none => name2
    let p := linkPass i neo.designation apps 0
    let r := initLoop rest (i + 1) p.1 name2' des2'
    ({ neo with approaches := neo.approaches ++ p.2 } :: r.1, r.2.1, r.2.2.1, r.2.2.2)

/-- Embedding of `database.NEODatabase`: the two entity collections and the two auxiliary
indexes (designation → NEO index, truthy name → NEO index). -/
structure NEODatabase where
  _neos : List NearEarthObject
  _approaches : List CloseApproach
  _name2neo : List (Option String × Nat)
  _des2neo : List (String × Nat)

/-- Embedding of `NEODatabase.__init__` (src/database.py): start from the supplied
collections and empty indexes and run the linking loop. -/
def NEODatabase.init (neos : List NearEarthObject) (approaches : List CloseApproach) :
    NEODatabase :=
  let r := initLoop neos 0 approaches [] []
  { _neos := r.1, _approaches := r.2.1, _name2neo := r.2.2.1, _des2neo := r.2.2.2 }

/-- Embedding of `NEODatabase.get_neo_by_designation` (src/database.py): dict lookup with
KeyError mapped to `none`. -/
def NEODatabase.get_neo_by_designation (db : NEODatabase) (designation : String) : Option Nat :=
  dictGet? db._des2neo designation

/-- Embedding of `NEODatabase.get_neo_by_name` (src/database.py): dict lookup with KeyError
mapped to `none`.  The argument is optional because the Python caller may pass `None`; the
name index only ever holds `some`-keys, so the absent name finds nothing, like in Python. -/
def NEODatabase.get_neo_by_name (db : NEODatabase) (name : Option String) : Option Nat :=
  dictGet? db._name2neo name

/-- A user filter as `query` sees it: a predicate on a close approach that either yields a
boolean or signals a data-availability error (`none` stands for the Python TypeError raised
when an NEO-sourced attribute is compared while the approach has no linked NEO; the filter
classes live in the external `filters` module, so only this interface is embedded). -/
def AttributeFilter : Type := CloseApproach → Option Bool

/-- Embedding of `all({filter(approach) for filter in filters})` (src/database.py line 124):
the set comprehension evaluates every filter, in order, before `all` runs; the first filter
that signals an error aborts the whole evaluation with an error. -/
def evalAll : List AttributeFilter → CloseApproach → Option Bool
  | [], _ => some true
  | f :: rest, a =>
    match f a with
    | none => none
    | some b =>
      match evalAll rest a with
      | none => none
      | some b' => some (b && b')

/-- Embedding of the generator body of `NEODatabase.query` (src/database.py lines 122-129):
walk the approach collection in order; yield an approach when every filter holds; skip it
when some filter is false; and when filter evaluation signals an error (the caught
TypeError), `return` — the whole remaining stream is dropped. -/
def queryAux (fs : List AttributeFilter) : List CloseApproach → List CloseApproach
  | [] => []
  | a :: rest =>
    match evalAll fs a with
    | none => []
    | some true => a :: queryAux fs rest
    | some false => queryAux fs rest

/-- Embedding of `NEODatabase.query` (src/database.py): the materialized result stream. -/
def NEODatabase.query (db : NEODatabase) (fs : List AttributeFilter) : List CloseApproach :=
  queryAux fs db._approaches

/-- Modelled from the spec: `helpers.datetime_to_str` is not under src/; the spec only
requires a formatted time string, so the carried time string is returned as-is and the
absent time becomes the empty string. -/
def datetime_to_str (t : Option String) : String :=
  match t with
  | some s => s
  | none => ""

/-- Embedding of `CloseApproach.time_str` (src/models.py). -/
def CloseApproach.time_str (a : CloseApproach) : String :=
  datetime_to_str a.time

/-- One output row of `write_to_csv` (src/write.py lines 29-45): the seven fields, with the
three NEO-sourced ones optional (`none` is Python's None written into the cell). -/
structure CsvRow where
  datetime_utc : String
  distance_au : Float
  velocity_km_s : Float
  designation : String
  name : Option String
  diameter_km : Option Float
  potentially_hazardous : Option Bool

/-- Embedding of the row tuple built in `write_to_csv` (src/write.py lines 37-45):
`approach.neo.name if approach.neo else None` and likewise for diameter and hazardous.
The database resolves the NEO reference (in Python the reference is the object itself). -/
def rowOf (db : NEODatabase) (a : CloseApproach) : CsvRow :=
  { datetime_utc := a.time_str
    distance_au := a.distance
    velocity_km_s := a.velocity
    designation := a._designation
    name :=
      match a.neo with
      | none => none
      | some i =>
        match db._neos[i]? with
        | some n => n.name
        | none => none
    diameter_km :=
      match a.neo with
      | none => none
      | some i =>
        match db._neos[i]? with
        | some n => some n.diameter
        | none => none
    potentially_hazardous :=
      match a.neo with
      | none => none
      | some i =>
        match db._neos[i]? with
        | some n => some n.hazardous
        | none => none }

/-- Embedding of `write_to_csv` (src/write.py): one row per result, in stream order (the
file-system side is out of scope; the rows are the serialized content). -/
def write_to_csv (db : NEODatabase) (results : List CloseApproach) : List CsvRow :=
  results.map (rowOf db)

/-- Modelled from the spec: the result limiter of §4.4 (its module is not under src/).
`none` or `some 0` means unlimited and yields the sequence unchanged; a positive bound
yields at most that many items, in order. -/
def limit {α : Type} (s : List α) (n : Option Nat) : List α :=
  match n with
  | none => s
  | some 0 => s
  | some (k + 1) => s.take (k + 1)

/-- Modelled from the spec: `HazardousFilter` from the external `filters` module.  It
extracts the hazardous flag from the approach's linked NEO and compares it with the
user-supplied value; when the approach has no linked NEO the extraction yields no value and
the comparison signals the data-availability error (§4.2, §4.3). -/
def hazardousFilter (neos : List NearEarthObject) (v : Bool) : AttributeFilter :=
  fun a =>
    match a.neo with
    | none => none
    | some i =>
      match neos[i]? with
      | some n => some (n.hazardous == v)
      | none => none

/-! ### Closed forms for the construction pass -/

/-- Per-approach effect of one outer iteration of the linking loop: set the NEO reference
when the designation matches. -/
def setNeoIf (i : Nat) (desig : String) (a : CloseApproach) : CloseApproach :=
  if a._designation = desig then { a with neo := some i } else a

/-- Positions (counted from `j`) of the approaches whose designation reference is `desig`. -/
def matchedFrom (desig : String) : List CloseApproach → Nat → List Nat
  | [], _ => []
  | a :: rest, j =>
    if a._designation = desig then j :: matchedFrom desig rest (j + 1)
    else matchedFrom desig rest (j + 1)

/-- Cumulative per-approach effect of the outer loop over the NEO list `xs` whose head has
position `i`. -/
def applyLinksFrom : List NearEarthObject → Nat → CloseApproach → CloseApproach
  | [], _, a => a
  | n :: rest, i, a => applyLinksFrom rest (i + 1) (setNeoIf i n.designation a)

/-- Position (counted from `i`) of the last NEO in `xs` whose designation is `desig`. -/
def lastMatchFrom (desig : String) : List NearEarthObject → Nat → Option Nat
  | [], _ => none
  | n :: rest, i =>
    match lastMatchFrom desig rest (i + 1) with
    | some m => some m
    | none => if n.designation = desig then some i else none

/-- Name-index entries contributed by the NEO list `xs` whose head has position `i`. -/
def nameEntriesFrom : List NearEarthObject → Nat → List (Option String × Nat)
  | [], _ => []
  | n :: rest, i =>
    match n.name with
    | some nm =>
      if nm = "" then nameEntriesFrom rest (i + 1)
      else (some nm, i) :: nameEntriesFrom rest (i + 1)
    | none => nameEntriesFrom rest (i + 1)

/-- Designation-index entries contributed by the NEO list `xs` whose head has position `i`. -/
def desEntriesFrom : List NearEarthObject → Nat → List (String × Nat)
  | [], _ => []
  | n :: rest, i => (n.designation, i) :: desEntriesFrom rest (i + 1)

theorem setNeoIf_designation (i : Nat) (d : String) (a : CloseApproach) :
    (setNeoIf i d a)._designation = a._designation := by
  unfold setNeoIf; split <;> rfl

theorem linkPass_fst (i : Nat) (d : String) :
    ∀ (apps : List CloseApproach) (j : Nat), (linkPass i d apps j).1 = apps.map (setNeoIf i d) := by
  intro apps
  induction apps with
  | nil => intro j; rfl
  | cons a rest ih =>
    intro j
    simp only [linkPass, List.map_cons, setNeoIf]
    split <;> simp [ih]

theorem linkPass_snd (i : Nat) (d : String) :
    ∀ (apps : List CloseApproach) (j : Nat), (linkPass i d apps j).2 = matchedFrom d apps j := by
  intro apps
  induction apps with
  | nil => intro j; rfl
  | cons a rest ih =>
    intro j
    simp only [linkPass, matchedFrom]
    split <;> simp [ih]

theorem matchedFrom_map (d : String) (g : CloseApproach → CloseApproach)
    (hg : ∀ a, (g a)._designation = a._designation) :
    ∀ (apps : List CloseApproach) (j : Nat), matchedFrom d (apps.map g) j = matchedFrom d apps j := by
  intro apps
  induction apps with
  | nil => intro j; rfl
  | cons a rest ih =>
    intro j
    simp only [List.map_cons, matchedFrom, hg a]
    split <;> simp [ih]

theorem applyLinksFrom_designation :
    ∀ (xs : List NearEarthObject) (i : Nat) (a : CloseApproach),
      (applyLinksFrom xs i a)._designation = a._designation := by
  intro xs
  induction xs with
  | nil => intro i a; rfl
  | cons n rest ih =>
    intro i a
    simp only [applyLinksFrom, ih, setNeoIf_designation]

theorem setNeoIf_neo (i : Nat) (d : String) (a : CloseApproach) :
    (setNeoIf i d a).neo = if a._designation = d then some i else a.neo := by
  unfold setNeoIf; split <;> rfl

theorem setNeoIf_time (i : Nat) (d : String) (a : CloseApproach) :
    (setNeoIf i d a).time = a.time := by
  unfold setNeoIf; split <;> rfl

theorem setNeoIf_distance (i : Nat) (d : String) (a : CloseApproach) :
    (setNeoIf i d a).distance = a.distance := by
  unfold setNeoIf; split <;> rfl

theorem setNeoIf_velocity (i : Nat) (d : String) (a : CloseApproach) :
    (setNeoIf i d a).velocity = a.velocity := by
  unfold setNeoIf; split <;> rfl

theorem applyLinksFrom_neo :
    ∀ (xs : List NearEarthObject) (i : Nat) (a : CloseApproach),
      (applyLinksFrom xs i a).neo =
        match lastMatchFrom a._designation xs i with
        | some m => some m
        | none => a.neo := by
  intro xs
  induction xs with
  | nil => intro i a; rfl
  | cons n rest ih =>
    intro i a
    simp only [applyLinksFrom, lastMatchFrom]
    rw [ih, setNeoIf_designation, setNeoIf_neo]
    cases hlm : lastMatchFrom a._designation rest (i + 1) with
    | some m => rfl
    | none =>
      by_cases h : a._designation = n.designation
      · rw [if_pos h, if_pos h.symm]
      · rw [if_neg h, if_neg (fun hh => h hh.symm)]

theorem applyLinksFrom_time (xs : List NearEarthObject) (i : Nat) (a : CloseApproach) :
    (applyLinksFrom xs i a).time = a.time := by
  induction xs generalizing i a with
  | nil => rfl
  | cons n rest ih => simp only [applyLinksFrom, ih, setNeoIf_time]

theorem applyLinksFrom_distance (xs : List NearEarthObject) (i : Nat) (a : CloseApproach) :
    (applyLinksFrom xs i a).distance = a.distance := by
  induction xs generalizing i a with
  | nil => rfl
  | cons n rest ih => simp only [applyLinksFrom, ih, setNeoIf_distance]

theorem applyLinksFrom_velocity (xs : List NearEarthObject) (i : Nat) (a : CloseApproach) :
    (applyLinksFrom xs i a).velocity = a.velocity := by
  induction xs generalizing i a with
  | nil => rfl
  | cons n rest ih => simp only [applyLinksFrom, ih, setNeoIf_velocity]

theorem map_id_of {α : Type} (l : List α) (f : α → α) (h : ∀ a, f a = a) : l.map f = l := by
  induction l with
  | nil => rfl
  | cons a rest ih => simp [h, ih]

theorem matchedFrom_setNeoIf (d : String) (i' : Nat) (d' : String)
    (apps : List CloseApproach) (j : Nat) :
    matchedFrom d (apps.map (setNeoIf i' d')) j = matchedFrom d apps j :=
  matchedFrom_map d (setNeoIf i' d') (setNeoIf_designation i' d') apps j

theorem applyLinksFrom_cons (n : NearEarthObject) (rest : List NearEarthObject) (i : Nat) :
    applyLinksFrom (n :: rest) i =
      fun a => applyLinksFrom rest (i + 1) (setNeoIf i n.designation a) :=
  rfl

theorem initLoop_eq :
    ∀ (xs : List NearEarthObject) (i : Nat) (apps : List CloseApproach)
      (name2 : List (Option String × Nat)) (des2 : List (String × Nat)),
      initLoop xs i apps name2 des2 =
        (xs.map (fun n => { n with approaches := n.approaches ++ matchedFrom n.designation apps 0 }),
         apps.map (applyLinksFrom xs i),
         name2 ++ nameEntriesFrom xs i,
         des2 ++ desEntriesFrom xs i) := by
  intro xs
  induction xs with
  | nil =>
    intro i apps name2 des2
    simp only [initLoop, List.map_nil, nameEntriesFrom, desEntriesFrom, List.append_nil]
    rw [map_id_of apps (applyLinksFrom [] i) (fun a => rfl)]
  | cons n rest ih =>
    intro i apps name2 des2
    simp only [initLoop, linkPass_fst, linkPass_snd, ih]
    cases hn : n.name with
    | none =>
      simp [nameEntriesFrom, desEntriesFrom, dictInsert, hn, List.map_cons, List.map_map,
        matchedFrom_setNeoIf, applyLinksFrom_cons, Function.comp_def]
    | some nm =>
      by_cases h : nm = "" <;>
        simp [nameEntriesFrom, desEntriesFrom, dictInsert, hn, h, List.map_cons, List.map_map,
          matchedFrom_setNeoIf, applyLinksFrom_cons, Function.comp_def]

theorem init_neos (neos : List NearEarthObject) (apps : List CloseApproach) :
    (NEODatabase.init neos apps)._neos =
      neos.map (fun n => { n with approaches := n.approaches ++ matchedFrom n.designation apps 0 }) := by
  unfold NEODatabase.init
  rw [initLoop_eq]

theorem init_approaches (neos : List NearEarthObject) (apps : List CloseApproach) :
    (NEODatabase.init neos apps)._approaches = apps.map (applyLinksFrom neos 0) := by
  unfold NEODatabase.init
  rw [initLoop_eq]

theorem init_name2neo (neos : List NearEarthObject) (apps : List CloseApproach) :
    (NEODatabase.init neos apps)._name2neo = nameEntriesFrom neos 0 := by
  unfold NEODatabase.init
  rw [initLoop_eq]
  rfl

theorem init_des2neo (neos : List NearEarthObject) (apps : List CloseApproach) :
    (NEODatabase.init neos apps)._des2neo = desEntriesFrom neos 0 := by
  unfold NEODatabase.init
  rw [initLoop_eq]
  rfl

/-! ### Properties of the closed forms -/

theorem lastMatchFrom_eq_none (d : String) :
    ∀ (xs : List NearEarthObject) (i : Nat),
      lastMatchFrom d xs i = none ↔ ∀ n ∈ xs, n.designation ≠ d := by
  intro xs
  induction xs with
  | nil => intro i; simp [lastMatchFrom]
  | cons n rest ih =>
    intro i
    constructor
    · intro h
      simp only [lastMatchFrom] at h
      cases hlm : lastMatchFrom d rest (i + 1) with
      | some m =>
        rw [hlm] at h
        exact absurd h (by simp)
      | none =>
        rw [hlm] at h
        intro n' hn'
        rcases List.mem_cons.mp hn' with h1 | h2
        · subst h1
          intro hd
          rw [if_pos hd] at h
          exact absurd h (by simp)
        · exact ((ih (i + 1)).mp hlm) n' h2
    · intro h
      have hrest : lastMatchFrom d rest (i + 1) = none :=
        (ih (i + 1)).mpr (fun n' hn' => h n' (List.mem_cons_of_mem n hn'))
      simp only [lastMatchFrom, hrest]
      rw [if_neg (h n (List.mem_cons_self n rest))]

theorem lastMatchFrom_spec (d : String) :
    ∀ (xs : List NearEarthObject) (i m : Nat),
      lastMatchFrom d xs i = some m →
        i ≤ m ∧ ∃ n, xs[m - i]? = some n ∧ n.designation = d := by
  intro xs
  induction xs with
  | nil => intro i m h; exact absurd h (by simp [lastMatchFrom])
  | cons n rest ih =>
    intro i m h
    simp only [lastMatchFrom] at h
    cases hlm : lastMatchFrom d rest (i + 1) with
    | some m' =>
      rw [hlm] at h
      have hm : m' = m := by simpa using h
      subst hm
      obtain ⟨hle, n', hn', hd⟩ := ih (i + 1) m' hlm
      refine ⟨by omega, n', ?_, hd⟩
      have : m' - i = (m' - (i + 1)) + 1 := by omega
      rw [this]
      simpa using hn'
    | none =>
      rw [hlm] at h
      by_cases hd : n.designation = d
      · rw [if_pos hd] at h
        have hm : i = m := by simpa using h
        subst hm
        exact ⟨le_refl i, n, by simp, hd⟩
      · rw [if_neg hd] at h
        exact absurd h (by simp)

theorem lastMatchFrom_unique (d : String) :
    ∀ (xs : List NearEarthObject) (i k : Nat) (n₀ : NearEarthObject),
      (xs.map (fun n => n.designation)).Nodup →
      xs[k]? = some n₀ → n₀.designation = d →
      lastMatchFrom d xs i = some (i + k) := by
  intro xs
  induction xs with
  | nil => intro i k n₀ _ hk; exact absurd hk (by simp)
  | cons n rest ih =>
    intro i k n₀ hnd hk hd
    rw [List.map_cons, List.nodup_cons] at hnd
    cases k with
    | zero =>
      have hn : n = n₀ := by simpa using hk
      subst hn
      have hnone : lastMatchFrom d rest (i + 1) = none := by
        rw [lastMatchFrom_eq_none]
        intro n' hn' he
        exact hnd.1 (List.mem_map.mpr ⟨n', hn', he.trans hd.symm⟩)
      simp only [lastMatchFrom, hnone]
      rw [if_pos hd]
      simp
    | succ k' =>
      have hk' : rest[k']? = some n₀ := by simpa using hk
      have hr := ih (i + 1) k' n₀ hnd.2 hk' hd
      simp only [lastMatchFrom, hr]
      congr 1
      omega

theorem mem_matchedFrom_le (d : String) :
    ∀ (apps : List CloseApproach) (j m : Nat), m ∈ matchedFrom d apps j → j ≤ m := by
  intro apps
  induction apps with
  | nil => intro j m h; exact absurd h (by simp [matchedFrom])
  | cons a rest ih =>
    intro j m h
    simp only [matchedFrom] at h
    by_cases hd : a._designation = d
    · rw [if_pos hd] at h
      rcases List.mem_cons.mp h with h1 | h2
      · omega
      · have := ih (j + 1) m h2; omega
    · rw [if_neg hd] at h
      have := ih (j + 1) m h; omega

theorem count_matchedFrom (d : String) :
    ∀ (apps : List CloseApproach) (j k : Nat),
      (matchedFrom d apps j).count (j + k) =
        match apps[k]? with
        | some a => if a._designation = d then 1 else 0
        | none => 0 := by
  intro apps
  induction apps with
  | nil => intro j k; simp [matchedFrom]
  | cons a rest ih =>
    intro j k
    cases k with
    | zero =>
      simp only [matchedFrom, List.getElem?_cons_zero, Nat.add_zero]
      by_cases hd : a._designation = d
      · rw [if_pos hd, if_pos hd]
        rw [List.count_cons_self]
        have hz : (matchedFrom d rest (j + 1)).count j = 0 := by
          rw [List.count_eq_zero]
          intro hmem
          have := mem_matchedFrom_le d rest (j + 1) j hmem
          omega
        omega
      · rw [if_neg hd, if_neg hd]
        rw [List.count_eq_zero]
        intro hmem
        have := mem_matchedFrom_le d rest (j + 1) j hmem
        omega
    | succ k' =>
      simp only [matchedFrom, List.getElem?_cons_succ]
      have heq : j + (k' + 1) = (j + 1) + k' := by omega
      by_cases hd : a._designation = d
      · rw [if_pos hd]
        rw [List.count_cons_of_ne (by omega)]
        rw [heq, ih (j + 1) k']
      · rw [if_neg hd]
        rw [heq, ih (j + 1) k']

theorem dictGet?_mem {κ : Type} [DecidableEq κ] :
    ∀ (d : List (κ × Nat)) (k : κ) (v : Nat), dictGet? d k = some v → (k, v) ∈ d := by
  intro d
  induction d with
  | nil => intro k v h; exact absurd h (by simp [dictGet?])
  | cons kv rest ih =>
    intro k v h
    simp only [dictGet?] at h
    cases hr : dictGet? rest k with
    | some v' =>
      rw [hr] at h
      have : v' = v := by simpa using h
      subst this
      exact List.mem_cons_of_mem kv (ih k v' hr)
    | none =>
      rw [hr] at h
      by_cases hk : kv.1 = k
      · rw [if_pos hk] at h
        have hv : kv.2 = v := by simpa using h
        have : kv = (k, v) := by
          cases kv
          simp only at hk hv
          rw [hk, hv]
        rw [← this]
        exact List.mem_cons_self kv rest
      · rw [if_neg hk] at h
        exact absurd h (by simp)

theorem nameEntriesFrom_mem :
    ∀ (xs : List NearEarthObject) (i : Nat) (k₀ : Option String) (v : Nat),
      (k₀, v) ∈ nameEntriesFrom xs i →
        i ≤ v ∧ ∃ n nm, xs[v - i]? = some n ∧ n.name = some nm ∧ k₀ = some nm ∧ nm ≠ "" := by
  intro xs
  induction xs with
  | nil => intro i k₀ v h; exact absurd h (by simp [nameEntriesFrom])
  | cons n rest ih =>
    intro i k₀ v h
    have tail : (k₀, v) ∈ nameEntriesFrom rest (i + 1) →
        i ≤ v ∧ ∃ n' nm, (n :: rest)[v - i]? = some n' ∧ n'.name = some nm ∧
          k₀ = some nm ∧ nm ≠ "" := by
      intro hm
      obtain ⟨hle, n', nm, hn', hnm, hk, hne⟩ := ih (i + 1) k₀ v hm
      refine ⟨by omega, n', nm, ?_, hnm, hk, hne⟩
      have : v - i = (v - (i + 1)) + 1 := by omega
      rw [this]
      simpa using hn'
    cases hn : n.name with
    | none =>
      simp only [nameEntriesFrom, hn] at h
      exact tail h
    | some nm =>
      by_cases he : nm = ""
      · simp only [nameEntriesFrom, hn, if_pos he] at h
        exact tail h
      · simp only [nameEntriesFrom, hn, if_neg he] at h
        rcases List.mem_cons.mp h with h1 | h2
        · have hk : k₀ = some nm := congrArg Prod.fst h1
          have hv : v = i := congrArg Prod.snd h1
          refine ⟨by omega, n, nm, ?_, hn, hk, he⟩
          rw [hv, Nat.sub_self]
          simp
        · exact tail h2

theorem nameEntriesFrom_last (s : String) :
    ∀ (xs : List NearEarthObject) (i k : Nat) (n : NearEarthObject),
      s ≠ "" → xs[k]? = some n → n.name = some s →
      (∀ m n', k < m → xs[m]? = some n' → n'.name ≠ some s) →
      dictGet? (nameEntriesFrom xs i) (some s) = some (i + k) := by
  intro xs
  induction xs with
  | nil => intro i k n _ hk; exact absurd hk (by simp)
  | cons x rest ih =>
    intro i k n hs hk hname hlast
    cases k with
    | zero =>
      have hx : x = n := by simpa using hk
      subst hx
      have hnone : dictGet? (nameEntriesFrom rest (i + 1)) (some s) = none := by
        cases hE : dictGet? (nameEntriesFrom rest (i + 1)) (some s) with
        | none => rfl
        | some v =>
          exfalso
          obtain ⟨hle, n', nm, hn', hnm, hkey, hne⟩ :=
            nameEntriesFrom_mem rest (i + 1) (some s) v (dictGet?_mem _ _ _ hE)
          have hnm' : nm = s := by simpa using hkey.symm
          subst hnm'
          exact hlast ((v - (i + 1)) + 1) n' (by omega) (by simpa using hn') hnm
      simp only [nameEntriesFrom, hname, if_neg hs, dictGet?, hnone, if_pos rfl]
      simp
    | succ k' =>
      have hk' : rest[k']? = some n := by simpa using hk
      have hlast' : ∀ m n', k' < m → rest[m]? = some n' → n'.name ≠ some s := by
        intro m n' hm h'
        exact hlast (m + 1) n' (by omega) (by simpa using h')
      have hr := ih (i + 1) k' n hs hk' hname hlast'
      have hgoal : some ((i + 1) + k') = some (i + (k' + 1)) := by
        congr 1
        omega
      cases hx : x.name with
      | none =>
        simp only [nameEntriesFrom, hx, hr]
        exact hgoal
      | some nmx =>
        by_cases he : nmx = ""
        · simp only [nameEntriesFrom, hx, if_pos he, hr]
          exact hgoal
        · simp only [nameEntriesFrom, hx, if_neg he, dictGet?, hr]
          exact hgoal

/-! ### Properties of filter evaluation and the query stream -/

theorem evalAll_none_of_mem :
    ∀ (fs : List AttributeFilter) (f : AttributeFilter) (a : CloseApproach),
      f ∈ fs → f a = none → evalAll fs a = none := by
  intro fs
  induction fs with
  | nil => intro f a h; exact absurd h (by simp)
  | cons g rest ih =>
    intro f a hmem hf
    simp only [evalAll]
    rcases List.mem_cons.mp hmem with h1 | h2
    · subst h1
      rw [hf]
    · cases hg : g a with
      | none => rfl
      | some b => rw [ih f a h2 hf]

theorem evalAll_some_forall :
    ∀ (fs : List AttributeFilter) (a : CloseApproach) (b : Bool),
      evalAll fs a = some b → ∀ f ∈ fs, ∃ b', f a = some b' := by
  intro fs
  induction fs with
  | nil => intro a b _ f hf; exact absurd hf (by simp)
  | cons g rest ih =>
    intro a b h f hf
    simp only [evalAll] at h
    cases hg : g a with
    | none => rw [hg] at h; exact absurd h (by simp)
    | some bg =>
      rw [hg] at h
      cases hr : evalAll rest a with
      | none => rw [hr] at h; exact absurd h (by simp)
      | some br =>
        rcases List.mem_cons.mp hf with h1 | h2
        · subst h1; exact ⟨bg, hg⟩
        · exact ih a br hr f h2

theorem evalAll_all_true :
    ∀ (fs : List AttributeFilter) (a : CloseApproach),
      (∀ f ∈ fs, f a = some true) → evalAll fs a = some true := by
  intro fs
  induction fs with
  | nil => intro a _; rfl
  | cons g rest ih =>
    intro a h
    simp only [evalAll]
    rw [h g (List.mem_cons_self g rest), ih a (fun f hf => h f (List.mem_cons_of_mem g hf))]
    rfl

theorem queryAux_nil_filters : ∀ (l : List CloseApproach), queryAux [] l = l := by
  intro l
  induction l with
  | nil => rfl
  | cons a rest ih => simp only [queryAux, evalAll, ih]

theorem queryAux_term (fs : List AttributeFilter) (a : CloseApproach)
    (ha : evalAll fs a = none) :
    ∀ (pre post : List CloseApproach), queryAux fs (pre ++ a :: post) = queryAux fs pre := by
  intro pre
  induction pre with
  | nil =>
    intro post
    simp only [List.nil_append, queryAux, ha]
  | cons b rest ih =>
    intro post
    simp only [List.cons_append, queryAux]
    cases hb : evalAll fs b with
    | none => rfl
    | some bb => cases bb <;> simp [ih post]

theorem queryAux_subset (fs : List AttributeFilter) :
    ∀ (l : List CloseApproach) (x : CloseApproach), x ∈ queryAux fs l → x ∈ l := by
  intro l
  induction l with
  | nil => intro x h; exact absurd h (by simp [queryAux])
  | cons a rest ih =>
    intro x h
    simp only [queryAux] at h
    cases ha : evalAll fs a with
    | none => rw [ha] at h; exact absurd h (by simp)
    | some b =>
      rw [ha] at h
      cases b with
      | true =>
        rcases List.mem_cons.mp h with h1 | h2
        · subst h1; exact List.mem_cons_self x rest
        · exact List.mem_cons_of_mem a (ih x h2)
      | false => exact List.mem_cons_of_mem a (ih x h)

theorem queryAux_of_all_true (fs : List AttributeFilter) :
    ∀ (l : List CloseApproach), (∀ a ∈ l, evalAll fs a = some true) → queryAux fs l = l := by
  intro l
  induction l with
  | nil => intro _; rfl
  | cons a rest ih =>
    intro h
    simp only [queryAux, h a (List.mem_cons_self a rest)]
    rw [ih (fun b hb => h b (List.mem_cons_of_mem a hb))]

/-! ### Concrete fixtures used by the witnesses (the spec's §8 scenario data) -/

/-- The NEO of the spec's §8 scenario. -/
def wNeoA : NearEarthObject :=
  { designation := "2000 AB", name := some "Apophis", diameter := 0.3, hazardous := true }

/-- The matching approach of the spec's §8 scenario. -/
def wAppA : CloseApproach :=
  { _designation := "2000 AB", time := some "2025-Jan-01 00:00", distance := 0.05,
    velocity := 10.0 }

/-- The unlinked approach of the spec's §8 scenario (no NEO has designation `9999 ZZ`). -/
def wApp9 : CloseApproach := { _designation := "9999 ZZ" }

/-- Database of the §8 early-termination scenario: the unlinked approach comes first. -/
def wDb1 : NEODatabase := NEODatabase.init [wNeoA] [wApp9, wAppA]

/-- The `hazardous == true` filter of the §8 scenario, resolving NEOs in `wDb1`. -/
def wFilt1 : AttributeFilter := hazardousFilter wDb1._neos true

/-- A filter that is false on every approach without touching NEO data. -/
def wFalse : AttributeFilter := fun _ => some false

/-! ### The claims -/

/-- C1: for every constructed database and filter collection, if some filter signals a
data-availability error on an approach of the collection, the query stream is exactly what
was produced strictly before that approach — nothing at or after it is yielded, matching
approaches included. -/
theorem claim_C1 (neos : List NearEarthObject) (apps : List CloseApproach)
    (fs : List AttributeFilter) (f : AttributeFilter)
    (pre post : List CloseApproach) (a : CloseApproach)
    (hsplit : (NEODatabase.init neos apps)._approaches = pre ++ a :: post)
    (hf : f ∈ fs) (herr : f a = none) :
    (NEODatabase.init neos apps).query fs = queryAux fs pre ∧
    ∀ x ∈ (NEODatabase.init neos apps).query fs, x ∈ pre := by
  have ha : evalAll fs a = none := evalAll_none_of_mem fs f a hf herr
  have h1 : (NEODatabase.init neos apps).query fs = queryAux fs pre := by
    rw [NEODatabase.query, hsplit]
    exact queryAux_term fs a ha pre post
  exact ⟨h1, fun x hx => queryAux_subset fs pre x (h1 ▸ hx)⟩

/-- Witness for C1: the §8 scenario — the unlinked approach precedes the matching one, the
hazardous filter errors on it, and the query yields zero results. -/
theorem claim_C1_witness :
    wFilt1 wApp9 = none ∧
    wDb1.query [wFilt1] = queryAux [wFilt1] [] ∧
    ∀ x ∈ wDb1.query [wFilt1], x ∈ ([] : List CloseApproach) := by
  have h := claim_C1 [wNeoA] [wApp9, wAppA] [wFilt1] wFilt1 []
    [{ wAppA with neo := some 0 }] wApp9 rfl (by simp) rfl
  exact ⟨rfl, h.1, h.2⟩

/-- C3: for every constructed database, the query with no filters yields exactly the
database's approach collection, in order, and that collection has one element per input
approach. -/
theorem claim_C3 (neos : List NearEarthObject) (apps : List CloseApproach) :
    (NEODatabase.init neos apps).query [] = (NEODatabase.init neos apps)._approaches ∧
    (NEODatabase.init neos apps)._approaches.length = apps.length := by
  constructor
  · exact queryAux_nil_filters _
  · rw [init_approaches]
    simp

/-- C7: for every constructed database, a filter collection in which every filter yields
true on every approach of the collection produces the same stream as the empty filter
collection. -/
theorem claim_C7 (neos : List NearEarthObject) (apps : List CloseApproach)
    (fs : List AttributeFilter)
    (h : ∀ a ∈ (NEODatabase.init neos apps)._approaches, ∀ f ∈ fs, f a = some true) :
    (NEODatabase.init neos apps).query fs = (NEODatabase.init neos apps).query [] := by
  rw [NEODatabase.query, NEODatabase.query, queryAux_nil_filters]
  exact queryAux_of_all_true fs _ (fun a ha => evalAll_all_true fs a (h a ha))

/-- Database with a single linked hazardous approach, for the C7 witness. -/
def wDb7 : NEODatabase := NEODatabase.init [wNeoA] [wAppA]

/-- The `hazardous == true` filter resolving NEOs in `wDb7`. -/
def wFilt7 : AttributeFilter := hazardousFilter wDb7._neos true

/-- Witness for C7: the hazardous filter is true on the only (linked, hazardous) approach,
and the filtered query equals the unfiltered one. -/
theorem claim_C7_witness :
    (∀ a ∈ wDb7._approaches, ∀ f ∈ [wFilt7], f a = some true) ∧
    wDb7.query [wFilt7] = wDb7.query [] := by
  have h : ∀ a ∈ wDb7._approaches, ∀ f ∈ [wFilt7], f a = some true := by
    intro a ha f hf
    have ha' : a = { wAppA with neo := some 0 } := by
      have he : wDb7._approaches = [{ wAppA with neo := some 0 }] := rfl
      rw [he] at ha
      simpa using ha
    have hf' : f = wFilt7 := by simpa using hf
    subst ha'
    subst hf'
    rfl
  exact ⟨h, claim_C7 [wNeoA] [wAppA] [wFilt7] h⟩

/-- C8: the result limiter with an absent bound or bound 0 yields the sequence unchanged;
with a positive bound it yields exactly `min N length` items, the length-`N` prefix in
original order. -/
theorem claim_C8 {α : Type} (s : List α) (N : Nat) (hN : 0 < N) :
    limit s none = s ∧ limit s (some 0) = s ∧
    (limit s (some N)).length = min N s.length ∧ limit s (some N) = s.take N := by
  refine ⟨rfl, rfl, ?_, ?_⟩
  · cases N with
    | zero => omega
    | succ k => simp [limit, List.length_take]
  · cases N with
    | zero => omega
    | succ k => rfl

/-- Witness for C8 at a three-element stream and bound 2. -/
theorem claim_C8_witness :
    (0 < 2) ∧
    (limit ([10, 11, 12] : List Nat) none = [10, 11, 12] ∧
     limit ([10, 11, 12] : List Nat) (some 0) = [10, 11, 12] ∧
     (limit ([10, 11, 12] : List Nat) (some 2)).length = min 2 ([10, 11, 12] : List Nat).length ∧
     limit ([10, 11, 12] : List Nat) (some 2) = ([10, 11, 12] : List Nat).take 2) :=
  ⟨by decide, claim_C8 [10, 11, 12] 2 (by decide)⟩

/-- C9: the filter conjunction of `query` has no short-circuit across filters: it is decided
only when every filter evaluated to a boolean, and a filter signalling a data-availability
error on an approach terminates the stream even when the filters before it evaluated to
booleans (possibly false) on that approach. -/
theorem claim_C9 (neos : List NearEarthObject) (apps : List CloseApproach)
    (pre post : List AttributeFilter) (f : AttributeFilter) (a : CloseApproach)
    (apre apost : List CloseApproach)
    (hpre : ∀ g ∈ pre, ∃ b, g a = some b)
    (herr : f a = none)
    (hsplit : (NEODatabase.init neos apps)._approaches = apre ++ a :: apost) :
    evalAll (pre ++ f :: post) a = none ∧
    (NEODatabase.init neos apps).query (pre ++ f :: post) = queryAux (pre ++ f :: post) apre ∧
    (∀ (fs : List AttributeFilter) (b : Bool), evalAll fs a = some b →
      ∀ g ∈ fs, ∃ b', g a = some b') := by
  have hmem : f ∈ pre ++ f :: post := List.mem_append_right pre (List.mem_cons_self f post)
  have h1 : evalAll (pre ++ f :: post) a = none := evalAll_none_of_mem _ f a hmem herr
  refine ⟨h1, ?_, fun fs b hb => evalAll_some_forall fs a b hb⟩
  rw [NEODatabase.query, hsplit]
  exact queryAux_term _ a h1 apre apost

/-- Witness for C9: on the unlinked approach a first filter returns false, the hazardous
filter errors, and the stream still terminates there (zero results). -/
theorem claim_C9_witness :
    wFalse wApp9 = some false ∧ wFilt1 wApp9 = none ∧
    evalAll [wFalse, wFilt1] wApp9 = none ∧
    wDb1.query [wFalse, wFilt1] = queryAux [wFalse, wFilt1] [] := by
  have h := claim_C9 [wNeoA] [wApp9, wAppA] [wFalse] [] wFilt1 wApp9 []
    [{ wAppA with neo := some 0 }]
    (by
      intro g hg
      rw [List.mem_singleton] at hg
      subst hg
      exact ⟨false, rfl⟩)
    rfl rfl
  exact ⟨rfl, rfl, h.1, h.2.1⟩

/-- C2: under the construction precondition (all approaches unlinked, all NEO approach lists
empty, NEO designations pairwise distinct), every approach whose designation reference
equals the designation of the NEO at position `i` ends up with its NEO reference set to `i`
and occurs exactly once in that NEO's approaches sequence. -/
theorem claim_C2 (neos : List NearEarthObject) (apps : List CloseApproach)
    (hunlinked : ∀ a ∈ apps, a.neo = none)
    (hempty : ∀ n ∈ neos, n.approaches = [])
    (hnd : (neos.map (fun n => n.designation)).Nodup)
    (i j : Nat) (n : NearEarthObject) (a : CloseApproach)
    (hni : neos[i]? = some n) (haj : apps[j]? = some a)
    (hmatch : a._designation = n.designation) :
    (∃ a', (NEODatabase.init neos apps)._approaches[j]? = some a' ∧ a'.neo = some i) ∧
    (∃ n', (NEODatabase.init neos apps)._neos[i]? = some n' ∧ n'.approaches.count j = 1) := by
  constructor
  · refine ⟨applyLinksFrom neos 0 a, ?_, ?_⟩
    · rw [init_approaches, List.getElem?_map, haj]
      rfl
    · rw [applyLinksFrom_neo]
      have hlm := lastMatchFrom_unique n.designation neos 0 i n hnd hni rfl
      rw [hmatch, hlm]
      simp
  · rw [init_neos, List.getElem?_map, hni, Option.map_some']
    refine ⟨_, rfl, ?_⟩
    show (n.approaches ++ matchedFrom n.designation apps 0).count j = 1
    rw [hempty n (List.getElem?_mem hni), List.nil_append]
    have hc := count_matchedFrom n.designation apps 0 j
    rw [Nat.zero_add] at hc
    rw [hc, haj]
    simp [hmatch]

/-- Witness for C2 at the §8 scenario: the single approach gets linked to the single NEO and
appears once in its approaches sequence. -/
theorem claim_C2_witness :
    wAppA._designation = wNeoA.designation ∧
    ((∃ a', (NEODatabase.init [wNeoA] [wAppA])._approaches[0]? = some a' ∧ a'.neo = some 0) ∧
     (∃ n', (NEODatabase.init [wNeoA] [wAppA])._neos[0]? = some n' ∧
        n'.approaches.count 0 = 1)) :=
  ⟨rfl, claim_C2 [wNeoA] [wAppA]
    (by intro a ha; rw [List.mem_singleton] at ha; subst ha; rfl)
    (by intro n hn; rw [List.mem_singleton] at hn; subst hn; rfl)
    (by simp) 0 0 wNeoA wAppA rfl rfl rfl⟩

/-- C5: under the construction precondition, an approach whose designation reference matches
no NEO keeps its NEO reference unset, appears in no NEO's approaches sequence, and the
construction is total (the approach collection keeps its length). -/
theorem claim_C5 (neos : List NearEarthObject) (apps : List CloseApproach)
    (hunlinked : ∀ a ∈ apps, a.neo = none)
    (hempty : ∀ n ∈ neos, n.approaches = [])
    (hnd : (neos.map (fun n => n.designation)).Nodup)
    (j : Nat) (a : CloseApproach)
    (haj : apps[j]? = some a)
    (hno : ∀ n ∈ neos, n.designation ≠ a._designation) :
    (∃ a', (NEODatabase.init neos apps)._approaches[j]? = some a' ∧ a'.neo = none) ∧
    (∀ (i : Nat) (n' : NearEarthObject),
      (NEODatabase.init neos apps)._neos[i]? = some n' → j ∉ n'.approaches) ∧
    (NEODatabase.init neos apps)._approaches.length = apps.length := by
  refine ⟨⟨applyLinksFrom neos 0 a, ?_, ?_⟩, ?_, ?_⟩
  · rw [init_approaches, List.getElem?_map, haj]
    rfl
  · rw [applyLinksFrom_neo]
    have hlm : lastMatchFrom a._designation neos 0 = none :=
      (lastMatchFrom_eq_none a._designation neos 0).mpr hno
    rw [hlm]
    exact hunlinked a (List.getElem?_mem haj)
  · intro i n' h
    rw [init_neos, List.getElem?_map] at h
    cases hni : neos[i]? with
    | none =>
      rw [hni] at h
      exact absurd h (by simp)
    | some n =>
      rw [hni, Option.map_some'] at h
      have hn' : n' = { n with approaches := n.approaches ++ matchedFrom n.designation apps 0 } := by
        simpa using h.symm
      subst hn'
      show j ∉ n.approaches ++ matchedFrom n.designation apps 0
      rw [hempty n (List.getElem?_mem hni), List.nil_append, ← List.count_eq_zero]
      have hc := count_matchedFrom n.designation apps 0 j
      rw [Nat.zero_add] at hc
      rw [hc, haj]
      simp [Ne.symm (hno n (List.getElem?_mem hni))]
  · rw [init_approaches]
    simp

/-- Witness for C5 at the §8 scenario: the `9999 ZZ` approach stays unlinked and appears in
no NEO's approaches sequence. -/
theorem claim_C5_witness :
    (∃ a', (NEODatabase.init [wNeoA] [wApp9])._approaches[0]? = some a' ∧ a'.neo = none) ∧
    (∀ (i : Nat) (n' : NearEarthObject),
      (NEODatabase.init [wNeoA] [wApp9])._neos[i]? = some n' → 0 ∉ n'.approaches) ∧
    (NEODatabase.init [wNeoA] [wApp9])._approaches.length = [wApp9].length :=
  claim_C5 [wNeoA] [wApp9]
    (by intro a ha; rw [List.mem_singleton] at ha; subst ha; rfl)
    (by intro n hn; rw [List.mem_singleton] at hn; subst hn; rfl)
    (by simp) 0 wApp9 rfl
    (by intro n hn; rw [List.mem_singleton] at hn; subst hn; decide)

/-- C6: for every constructed database, name lookup never returns a result for the absent
name or for the empty string (even when a supplied NEO's name field is the empty string);
for any other string it returns only a NEO whose name matches exactly, and no value when no
NEO's name matches. -/
theorem claim_C6 (neos : List NearEarthObject) (apps : List CloseApproach)
    (s : String) (i : Nat) :
    (NEODatabase.init neos apps).get_neo_by_name none = none ∧
    (NEODatabase.init neos apps).get_neo_by_name (some "") = none ∧
    ((NEODatabase.init neos apps).get_neo_by_name (some s) = some i →
      ∃ n, (NEODatabase.init neos apps)._neos[i]? = some n ∧ n.name = some s) ∧
    ((∀ n ∈ neos, n.name ≠ some s) →
      (NEODatabase.init neos apps).get_neo_by_name (some s) = none) := by
  refine ⟨?_, ?_, ?_, ?_⟩
  · rw [NEODatabase.get_neo_by_name, init_name2neo]
    cases hE : dictGet? (nameEntriesFrom neos 0) none with
    | none => rfl
    | some v =>
      exfalso
      obtain ⟨_, n, nm, _, _, hkey, _⟩ :=
        nameEntriesFrom_mem neos 0 none v (dictGet?_mem _ _ _ hE)
      exact absurd hkey (by simp)
  · rw [NEODatabase.get_neo_by_name, init_name2neo]
    cases hE : dictGet? (nameEntriesFrom neos 0) (some "") with
    | none => rfl
    | some v =>
      exfalso
      obtain ⟨_, n, nm, _, _, hkey, hne⟩ :=
        nameEntriesFrom_mem neos 0 (some "") v (dictGet?_mem _ _ _ hE)
      exact hne (by simpa using hkey.symm)
  · intro h
    rw [NEODatabase.get_neo_by_name, init_name2neo] at h
    obtain ⟨_, n, nm, hn, hnm, hkey, _⟩ :=
      nameEntriesFrom_mem neos 0 (some s) i (dictGet?_mem _ _ _ h)
    have hnm' : nm = s := by simpa using hkey.symm
    subst hnm'
    rw [Nat.sub_zero] at hn
    rw [init_neos, List.getElem?_map, hn, Option.map_some']
    exact ⟨_, rfl, hnm⟩
  · intro h
    rw [NEODatabase.get_neo_by_name, init_name2neo]
    cases hE : dictGet? (nameEntriesFrom neos 0) (some s) with
    | none => rfl
    | some v =>
      exfalso
      obtain ⟨_, n, nm, hn, hnm, hkey, _⟩ :=
        nameEntriesFrom_mem neos 0 (some s) v (dictGet?_mem _ _ _ hE)
      have hnm' : nm = s := by simpa using hkey.symm
      subst hnm'
      rw [Nat.sub_zero] at hn
      exact h n (List.getElem?_mem hn) hnm

/-- An NEO whose name field is literally the empty string, for the C6 witness. -/
def wNeoE : NearEarthObject := { designation := "1111 EE", name := some "" }

/-- Witness for C6: with an empty-string-named NEO present, lookups for the absent name and
the empty string find nothing, a lookup for `Apophis` returns the NEO with that exact name,
and a lookup for an absent name string finds nothing. -/
theorem claim_C6_witness :
    (NEODatabase.init [wNeoE, wNeoA] []).get_neo_by_name none = none ∧
    (NEODatabase.init [wNeoE, wNeoA] []).get_neo_by_name (some "") = none ∧
    (∃ n, (NEODatabase.init [wNeoE, wNeoA] [])._neos[1]? = some n ∧ n.name = some "Apophis") ∧
    (NEODatabase.init [wNeoE, wNeoA] []).get_neo_by_name (some "Zed") = none := by
  have h := claim_C6 [wNeoE, wNeoA] [] "Apophis" 1
  have h' := claim_C6 [wNeoE, wNeoA] [] "Zed" 0
  refine ⟨h.1, h.2.1, h.2.2.1 rfl, h'.2.2.2 ?_⟩
  intro n hn
  rcases List.mem_cons.mp hn with h1 | h2
  · subst h1; decide
  · rw [List.mem_singleton] at h2; subst h2; decide

/-- C10: when several NEOs share a non-empty name, the name index maps that name to the one
occurring last in the NEO collection's order, and name lookup returns exactly that NEO. -/
theorem claim_C10 (neos : List NearEarthObject) (apps : List CloseApproach)
    (s : String) (i k : Nat) (ni nk : NearEarthObject)
    (hik : i < k) (hi : neos[i]? = some ni) (hk : neos[k]? = some nk)
    (hni : ni.name = some s) (hnk : nk.name = some s) (hs : s ≠ "")
    (hlast : ∀ m n', k < m → neos[m]? = some n' → n'.name ≠ some s) :
    dictGet? (NEODatabase.init neos apps)._name2neo (some s) = some k ∧
    (NEODatabase.init neos apps).get_neo_by_name (some s) = some k := by
  have h := nameEntriesFrom_last s neos 0 k nk hs hk hnk hlast
  rw [Nat.zero_add] at h
  constructor
  · rw [init_name2neo]
    exact h
  · rw [NEODatabase.get_neo_by_name, init_name2neo]
    exact h

/-- First of two NEOs sharing the name `Twin`, for the C10 witness. -/
def wTwin1 : NearEarthObject := { designation := "T1", name := some "Twin" }

/-- Second of two NEOs sharing the name `Twin`, for the C10 witness. -/
def wTwin2 : NearEarthObject := { designation := "T2", name := some "Twin" }

/-- Witness for C10: with two NEOs named `Twin`, lookup returns the later one (index 1). -/
theorem claim_C10_witness :
    dictGet? (NEODatabase.init [wTwin1, wTwin2] [])._name2neo (some "Twin") = some 1 ∧
    (NEODatabase.init [wTwin1, wTwin2] []).get_neo_by_name (some "Twin") = some 1 :=
  claim_C10 [wTwin1, wTwin2] [] "Twin" 0 1 wTwin1 wTwin2 (by decide) rfl rfl rfl rfl
    (by decide)
    (by
      intro m n' hm h
      rcases m with _ | m
      · omega
      rcases m with _ | m
      · omega
      simp at h)

/-- An NEO without a name, for the C4 counterexample. -/
def wNeoU : NearEarthObject := { designation := "1994 PC1", diameter := 1.0, hazardous := true }

/-- An approach linked to the unnamed NEO, for the C4 counterexample. -/
def wAppU : CloseApproach := { _designation := "1994 PC1" }

/-- Database with one unnamed NEO and one linked approach, for the C4 counterexample. -/
def wDb4 : NEODatabase := NEODatabase.init [wNeoU] [wAppU]

/-- Counterexample to C4: in `wDb4` the only query result is linked (its NEO reference is
set), yet because the linked NEO has no name the serialized `name` field is null — "null if
and only if the NEO reference is unset" fails for the `name` field. -/
theorem claim_C4_counterexample :
    ¬ (∀ a ∈ wDb4.query [], ((rowOf wDb4 a).name = none ↔ a.neo = none)) := by
  intro h
  have hq : wDb4.query [] = [{ wAppU with neo := some 0 }] := rfl
  have hmem : ({ wAppU with neo := some 0 } : CloseApproach) ∈ wDb4.query [] := by
    rw [hq]
    exact List.mem_singleton.mpr rfl
  have hiff := h _ hmem
  have hname : (rowOf wDb4 { wAppU with neo := some 0 }).name = none := rfl
  have hneo : ({ wAppU with neo := some 0 } : CloseApproach).neo = some 0 := rfl
  rw [hneo] at hiff
  exact Option.noConfusion (hiff.mp hname)

/-- C4 (amended): for every approach record of a constructed database (inputs unlinked),
the serialized row's `diameter_km` and `potentially_hazardous` fields are null exactly when
the approach's NEO reference is unset, while the `name` field is null exactly when the NEO
reference is unset or the linked NEO itself has no name. -/
theorem claim_C4_amended (neos : List NearEarthObject) (apps : List CloseApproach)
    (hunlinked : ∀ a ∈ apps, a.neo = none)
    (j : Nat) (a' : CloseApproach)
    (hj : (NEODatabase.init neos apps)._approaches[j]? = some a') :
    ((rowOf (NEODatabase.init neos apps) a').diameter_km = none ↔ a'.neo = none) ∧
    ((rowOf (NEODatabase.init neos apps) a').potentially_hazardous = none ↔ a'.neo = none) ∧
    ((rowOf (NEODatabase.init neos apps) a').name = none ↔
      (a'.neo = none ∨ ∃ i n, a'.neo = some i ∧
        (NEODatabase.init neos apps)._neos[i]? = some n ∧ n.name = none)) := by
  have hvalid : ∀ i : Nat, a'.neo = some i →
      ∃ n, (NEODatabase.init neos apps)._neos[i]? = some n := by
    intro i hi
    rw [init_approaches, List.getElem?_map] at hj
    cases haj : apps[j]? with
    | none =>
      rw [haj] at hj
      exact absurd hj (by simp)
    | some a =>
      rw [haj, Option.map_some'] at hj
      have ha' : a' = applyLinksFrom neos 0 a := by simpa using hj.symm
      rw [ha', applyLinksFrom_neo] at hi
      cases hlm : lastMatchFrom a._designation neos 0 with
      | none =>
        rw [hlm] at hi
        rw [hunlinked a (List.getElem?_mem haj)] at hi
        exact absurd hi (by simp)
      | some m =>
        rw [hlm] at hi
        have hm : m = i := by simpa using hi
        subst hm
        obtain ⟨_, n, hn, _⟩ := lastMatchFrom_spec a._designation neos 0 m hlm
        rw [Nat.sub_zero] at hn
        rw [init_neos, List.getElem?_map, hn, Option.map_some']
        exact ⟨_, rfl⟩
  cases hne : a'.neo with
  | none =>
    refine ⟨?_, ?_, ?_⟩ <;> simp [rowOf, hne]
  | some i =>
    obtain ⟨n, hn⟩ := hvalid i hne
    refine ⟨?_, ?_, ?_⟩
    · simp [rowOf, hne, hn]
    · simp [rowOf, hne, hn]
    · simp only [rowOf, hne, hn]
      constructor
      · intro hname
        exact Or.inr ⟨i, n, rfl, hn, hname⟩
      · intro hor
        rcases hor with h1 | ⟨i', n', hi', hn', hname⟩
        · exact absurd h1 (by simp)
        · have : i' = i := by simpa using hi'.symm
          subst this
          rw [hn] at hn'
          have : n' = n := by simpa using hn'.symm
          subst this
          exact hname

/-- Witness for the amended C4: the §8 database — the linked approach has a named NEO, so
all three nullable fields are non-null, as the amended equivalences require. -/
theorem claim_C4_amended_witness :
    ((rowOf (NEODatabase.init [wNeoA] [wAppA]) { wAppA with neo := some 0 }).diameter_km = none ↔
      ({ wAppA with neo := some 0 } : CloseApproach).neo = none) ∧
    ((rowOf (NEODatabase.init [wNeoA] [wAppA])
        { wAppA with neo := some 0 }).potentially_hazardous = none ↔
      ({ wAppA with neo := some 0 } : CloseApproach).neo = none) ∧
    ((rowOf (NEODatabase.init [wNeoA] [wAppA]) { wAppA with neo := some 0 }).name = none ↔
      (({ wAppA with neo := some 0 } : CloseApproach).neo = none ∨
       ∃ i n, ({ wAppA with neo := some 0 } : CloseApproach).neo = some i ∧
         (NEODatabase.init [wNeoA] [wAppA])._neos[i]? = some n ∧ n.name = none)) :=
  claim_C4_amended [wNeoA] [wAppA]
    (by intro a ha; rw [List.mem_singleton] at ha; subst ha; rfl)
    0 { wAppA with neo := some 0 } rfl
